import Mathlib

/-!
Shallow embedding of the Research Index & Stats Program (RISP v2).

The program keeps an insertion-ordered mapping from paper names to
non-negative integer citation counts (a Python `dict`).  We model it as a
list of (name, count) pairs; dictionary updates preserve the position of an
existing key and append fresh keys at the end, which is exactly Python's
`dict` behaviour.  Pure functions of the source are translated one by one;
file contents are modelled as the `String` that would be written to or read
from disk.  Python's stable `sorted` is modelled by the stable
`List.insertionSort`.
-/

namespace RISP

/-- A paper collection: the insertion-ordered `dict` mapping paper name to
citation count. -/
abbrev Papers := List (String × Nat)

/-- `papers.keys()`. -/
def pkeys (ps : Papers) : List String := ps.map Prod.fst

/-- `papers.values()`. -/
def pvalues (ps : Papers) : List Nat := ps.map Prod.snd

/-- The descending order on citation counts used by
`sorted(papers.values(), reverse=True)`. -/
def geNat (a b : Nat) : Prop := b ≤ a

instance : DecidableRel geNat := fun a b => inferInstanceAs (Decidable (b ≤ a))

instance : IsTotal Nat geNat := ⟨fun a b => Nat.le_total b a⟩

instance : IsTrans Nat geNat := ⟨fun _ _ _ h1 h2 => Nat.le_trans h2 h1⟩

/-- The ascending order on citation counts used by `statistics.median`,
which sorts its data ascending. -/
def leNat (a b : Nat) : Prop := a ≤ b

instance : DecidableRel leNat := fun a b => inferInstanceAs (Decidable (a ≤ b))

instance : IsTotal Nat leNat := ⟨fun a b => Nat.le_total a b⟩

instance : IsTrans Nat leNat := ⟨fun _ _ _ h1 h2 => Nat.le_trans h1 h2⟩

/-- Ordering of `sorted(papers.items(), key=lambda x: x[1], reverse=True)`:
descending by citation count; a stable sort with this relation models
Python's reverse sort on the second component. -/
def citLE (a b : String × Nat) : Prop := b.2 ≤ a.2

instance : DecidableRel citLE := fun a b => inferInstanceAs (Decidable (b.2 ≤ a.2))

instance : IsTotal (String × Nat) citLE := ⟨fun a b => Nat.le_total b.2 a.2⟩

instance : IsTrans (String × Nat) citLE := ⟨fun _ _ _ h1 h2 => Nat.le_trans h2 h1⟩

/-- Ordering of `sorted(papers.items(), key=lambda x: x[0])`: ascending by
paper name. -/
def nameLE (a b : String × Nat) : Prop := a.1 ≤ b.1

instance : DecidableRel nameLE := fun a b => inferInstanceAs (Decidable (a.1 ≤ b.1))

instance : IsTotal (String × Nat) nameLE := ⟨fun a b => le_total a.1 b.1⟩

instance : IsTrans (String × Nat) nameLE := ⟨fun _ _ _ h1 h2 => le_trans h1 h2⟩

/-- The loop of `h_index`:
`for i, c in enumerate(citations, start=1): if c >= i: h = i`. -/
def hAux : List Nat → Nat → Nat → Nat
  | [], _, h => h
  | c :: cs, i, h => hAux cs (i + 1) (if i ≤ c then i else h)

/-- `h_index(papers)` (source lines 131-140): sort the citation counts
descending, then run the enumerated loop starting at rank 1 with `h = 0`. -/
def h_index (ps : Papers) : Nat :=
  hAux (List.insertionSort geNat (pvalues ps)) 1 0

/-- `i10_index(papers)` (source lines 143-147):
`sum(1 for c in papers.values() if c >= 10)`. -/
def i10_index (ps : Papers) : Nat :=
  ((pvalues ps).filter (fun c => decide (10 ≤ c))).length

/-- The inner count of `count_above_thresholds`:
`sum(1 for c in papers.values() if c >= t)` for an integer threshold `t`. -/
def countAtLeastI (ps : Papers) (t : Int) : Nat :=
  ((pvalues ps).filter (fun (c : Nat) => decide (t ≤ (c : Int)))).length

/-- Assignment `d[k] = v` on a Python `dict` with integer keys: an existing
key keeps its position and gets the new value, a fresh key is appended. -/
def dinsert (d : List (Int × Nat)) (k : Int) (v : Nat) : List (Int × Nat) :=
  if d.any (fun p => p.1 == k) then
    d.map (fun p => if p.1 == k then (p.1, v) else p)
  else d ++ [(k, v)]

/-- `count_above_thresholds(papers, thresholds)` (source lines 150-155):
the dict comprehension `{t: sum(1 for c in papers.values() if c >= t) for t
in thresholds}`, built key by key in threshold order. -/
def count_above_thresholds (ps : Papers) (ts : List Int) : List (Int × Nat) :=
  ts.foldl (fun d t => dinsert d t (countAtLeastI ps t)) []

/-- Reading `d[k]` from the integer-keyed `dict`, as an `Option`. -/
def pylookup (d : List (Int × Nat)) (k : Int) : Option Nat :=
  (d.find? (fun p => p.1 == k)).map Prod.snd

/-- `get_sorted_papers(papers, mode)` (source lines 158-166): stable sort
descending by citations, or ascending by name, and the input itself for any
other mode. -/
def get_sorted_papers (ps : Papers) (mode : String) : Papers :=
  if mode = "citations" then List.insertionSort citLE ps
  else if mode = "name" then List.insertionSort nameLE ps
  else ps

/-- `statistics.mean` over the citation counts, as an exact rational. -/
def meanQ (vs : List Nat) : ℚ :=
  (vs.map (fun (v : Nat) => (v : ℚ))).sum / (vs.length : ℚ)

/-- The sample variance underlying `statistics.stdev`: the sum of squared
deviations from the mean, divided by `n - 1`. -/
def sampleVarQ (vs : List Nat) : ℚ :=
  (vs.map (fun (v : Nat) => ((v : ℚ) - meanQ vs) ^ 2)).sum / ((vs.length : ℚ) - 1)

/-- `n * (c - mean)` as an exact integer, where `n` is the number of
values and `mean` their arithmetic mean: `c * n - sum`. -/
def devI (vs : List Nat) (c : Nat) : Int :=
  (c : Int) * vs.length - (vs.sum : Int)

/-- `n ^ 2` times the sum of squared deviations from the mean, as an exact
integer: the numerator of the sample variance over the denominator
`n ^ 2 * (n - 1)`. -/
def ssDevI (vs : List Nat) : Int :=
  (vs.map (fun v => devI vs v ^ 2)).sum

/-- The test `cit > mean_val + 2 * std_dev` of the outlier loop, cleared of
denominators and of the square root so that it is exact integer
arithmetic: with `d = n * (c - mean)`, the test holds exactly when `d > 0`
and `(n - 1) * d ^ 2 > 4 * n ^ 2 * (sum of squared deviations)`
(`highOutlier_iff_real` proves this equal to the source's condition). -/
def highOutlierB (vs : List Nat) (c : Nat) : Bool :=
  decide (0 < devI vs c) &&
    decide (4 * ssDevI vs < ((vs.length : Int) - 1) * devI vs c ^ 2)

/-- The test `cit < mean_val - 2 * std_dev` of the outlier loop, cleared of
denominators and of the square root (see `lowOutlier_iff_real`). -/
def lowOutlierB (vs : List Nat) (c : Nat) : Bool :=
  decide (devI vs c < 0) &&
    decide (4 * ssDevI vs < ((vs.length : Int) - 1) * devI vs c ^ 2)

/-- The outlier detection of `generate_summary_report` (source lines
196-204): when there is more than one paper, walk the collection in order
and classify each paper with the `if`/`elif` pair of tests; with at most
one paper both lists stay empty. -/
def detect_outliers (ps : Papers) : List (String × Nat) × List (String × Nat) :=
  if 1 < ps.length then
    ps.foldl
      (fun acc p =>
        if highOutlierB (pvalues ps) p.2 then (acc.1 ++ [p], acc.2)
        else if lowOutlierB (pvalues ps) p.2 then (acc.1, acc.2 ++ [p])
        else acc)
      ([], [])
  else ([], [])

/-- `max(values)` (0 on the empty list, which the source never queries). -/
def listMax : List Nat → Nat
  | [] => 0
  | v :: vs => vs.foldl Nat.max v

/-- `min(values)` (0 on the empty list, which the source never queries). -/
def listMin : List Nat → Nat
  | [] => 0
  | v :: vs => vs.foldl Nat.min v

/-- A run of `n` copies of the character `c`, as in Python `c * n`. -/
def repChar (c : Char) (n : Nat) : String := String.mk (List.replicate n c)

/-- A run of `n` spaces. -/
def spaces (n : Nat) : String := repChar ' ' n

/-- Python `f"{s:<w}"`: left-justify in width `w`. -/
def padRight (s : String) (w : Nat) : String := s ++ spaces (w - s.length)

/-- Python `f"{s:>w}"`: right-justify in width `w`. -/
def padLeft (s : String) (w : Nat) : String := spaces (w - s.length) ++ s

/-- Python `s.center(w)`: CPython puts `marg // 2 + (marg & w & 1)` of the
`marg = w - len(s)` fill characters on the left. -/
def pyCenter (s : String) (w : Nat) : String :=
  let marg := w - s.length
  let left := marg / 2 + (marg &&& w &&& 1)
  spaces left ++ s ++ spaces (marg - left)

/-- Decimal display of `round(q, 2)` as produced for `avg_citations`:
round to cents and print with the trailing zeros a Python float drops,
keeping at least one decimal digit. -/
def displayRound2 (q : ℚ) : String :=
  let c : Int := round (q * 100)
  let ip : Int := c / 100
  let fr : Int := c % 100
  if fr = 0 then toString ip ++ ".0"
  else if fr % 10 = 0 then toString ip ++ "." ++ toString (fr / 10)
  else if fr < 10 then toString ip ++ ".0" ++ toString fr
  else toString ip ++ "." ++ toString fr

/-- Display of `statistics.median(values)`: the middle element for an odd
count, and the exact half-integer average of the two middle elements, shown
as a float, for an even count. -/
def medianDisplay (vs : List Nat) : String :=
  let s := List.insertionSort leNat vs
  let n := s.length
  if n % 2 = 1 then toString (s.getD (n / 2) 0)
  else
    let a := s.getD (n / 2 - 1) 0
    let b := s.getD (n / 2) 0
    if (a + b) % 2 = 0 then toString ((a + b) / 2) ++ ".0"
    else toString ((a + b) / 2) ++ ".5"

/-- `generate_summary_report(papers)` (source lines 169-228).  The empty
collection short-circuits to `"No papers available.\n"`; otherwise the
statistics are computed and the report lines are joined with newlines. -/
def generate_summary_report (papers : Papers) : String :=
  if papers.isEmpty then "No papers available.\n"
  else
    let values := pvalues papers
    let total_papers := values.length
    let total_citations := values.sum
    let avg_citations := displayRound2 (meanQ values)
    let median_citations := medianDisplay values
    let max_cit := listMax values
    let min_cit := listMin values
    let h_idx := h_index papers
    let i10_idx := i10_index papers
    let range_cit := max_cit - min_cit
    let zero_cit := (papers.filter (fun p => p.2 == 0)).map Prod.fst
    let outs := detect_outliers papers
    let outliers_high := outs.1
    let outliers_low := outs.2
    let sorted_papers := get_sorted_papers papers "citations"
    let header : List String :=
      [pyCenter "RESEARCH PAPER STATISTICS" 60,
       repChar '=' 60,
       "Total Papers       : " ++ toString total_papers,
       "Total Citations    : " ++ toString total_citations,
       "h-index            : " ++ toString h_idx,
       "i10-index          : " ++ toString i10_idx,
       "Average Citations  : " ++ avg_citations,
       "Median Citations   : " ++ median_citations,
       "Max Citations      : " ++ toString max_cit,
       "Min Citations      : " ++ toString min_cit,
       "Range              : " ++ toString range_cit,
       "Zero-Citation Papers: " ++
         (if zero_cit.isEmpty then "None" else String.intercalate ", " zero_cit),
       "High Outliers (>2σ): " ++
         (if outliers_high.isEmpty then "None"
          else String.intercalate ", "
            (outliers_high.map (fun p => p.1 ++ "(" ++ toString p.2 ++ ")"))),
       "Low Outliers (<2σ) : " ++
         (if outliers_low.isEmpty then "None"
          else String.intercalate ", "
            (outliers_low.map (fun p => p.1 ++ "(" ++ toString p.2 ++ ")"))),
       "\nAll Papers Descending by Citations:",
       padRight "S.No" 5 ++ " " ++ padRight "Paper Name" 35 ++ " " ++ padLeft "Citations" 10,
       repChar '-' 50]
    let rows :=
      (sorted_papers.enumFrom 1).map
        (fun ic =>
          padRight (toString ic.1) 5 ++ " " ++ padRight ic.2.1 35 ++ " " ++
            padLeft (toString ic.2.2) 10)
    String.intercalate "\n" (header ++ rows)

/-- The characters removed by Python `str.strip()`: exactly those with
`str.isspace()` true — the ASCII range tab..carriage-return, the
separators U+001C-U+001F, the space, NEL, NBSP, the Ogham space mark, the
Zs/Zl/Zp spaces U+2000-U+200A, U+2028, U+2029, U+202F, U+205F and the
ideographic space U+3000. -/
def isPySpace (c : Char) : Bool :=
  let n := c.toNat
  (9 ≤ n && n ≤ 13) || (28 ≤ n && n ≤ 32) || n == 133 || n == 160 ||
    n == 5760 || (8192 ≤ n && n ≤ 8202) || n == 8232 || n == 8233 ||
    n == 8239 || n == 8287 || n == 12288

/-- Python `line.strip()` on a line given as a character list. -/
def pystrip (l : List Char) : List Char :=
  ((l.dropWhile isPySpace).reverse.dropWhile isPySpace).reverse

/-- Worker for `splitNewlines`.  The flag records that the previous
character was a carriage return, so that the `'\n'` of a `"\r\n"` pair is
part of the terminator already emitted and starts no further line. -/
def splitNLAux : Bool → List Char → List (List Char)
  | _, [] => [[]]
  | afterCR, c :: cs =>
    if c = '\n' then
      if afterCR then splitNLAux false cs
      else [] :: splitNLAux false cs
    else if c = '\x0d' then [] :: splitNLAux true cs
    else
      match splitNLAux false cs with
      | [] => [[c]]
      | l :: ls => (c :: l) :: ls

/-- Split file contents into the lines that `for line in f` yields, with
Python's universal newlines: `"\r\n"`, `"\r"` and `"\n"` each terminate a
line.  `"a\nb\n"` splits into `a`, `b` and an empty tail. -/
def splitNewlines (l : List Char) : List (List Char) := splitNLAux false l

/-- Decimal digits of `n`, most significant first, with explicit fuel so
that the recursion is structural.  `natToDigits` supplies enough fuel. -/
def natToDigitsAux : Nat → Nat → List Char
  | 0, _ => []
  | fuel + 1, n =>
    if n < 10 then [Char.ofNat (48 + n)]
    else natToDigitsAux fuel (n / 10) ++ [Char.ofNat (48 + n % 10)]

/-- The decimal representation of `n`, as written by `f"{cit}"`. -/
def natToDigits (n : Nat) : List Char := natToDigitsAux (n + 1) n

/-- Python `s.isdigit()` on the citation segment (its ASCII part): a
non-empty all-digit string. -/
def pyIsDigit (l : List Char) : Bool := !l.isEmpty && l.all Char.isDigit

/-- Python `int(s)` on an all-digit string. -/
def parseNat (l : List Char) : Nat :=
  l.foldl (fun n c => n * 10 + (c.toNat - 48)) 0

/-- Assignment `papers[name] = v` on the paper `dict`: an existing key
keeps its position and gets the new value, a fresh key is appended. -/
def pinsert (ps : Papers) (name : String) (v : Nat) : Papers :=
  if ps.any (fun p => p.1 == name) then
    ps.map (fun p => if p.1 == name then (p.1, v) else p)
  else ps ++ [(name, v)]

/-- One record of the text file: `f.write(f"{name}|{cit}\n")`. -/
def saveLine (p : String × Nat) : List Char :=
  p.1.toList ++ ('|' :: natToDigits p.2) ++ ['\n']

/-- `save_papers_to_txt` (source lines 92-102): the text written to the
file, one `Name|Citations` line per paper in iteration order. -/
def save_papers_to_txt (ps : Papers) : String :=
  ((ps.map saveLine).flatten).asString

/-- The body of the loading loop of `load_papers_from_txt`: a line that
contains a `'|'` is stripped and split at the first `'|'`, and the record
is kept when the citation segment is a non-empty digit string; any other
line is skipped. -/
def loadLine (papers : Papers) (line : List Char) : Papers :=
  if line.contains '|' then
    let stripped := pystrip line
    let name := (stripped.takeWhile (fun c => c != '|')).asString
    let cit := (stripped.dropWhile (fun c => c != '|')).drop 1
    if pyIsDigit cit then pinsert papers name (parseNat cit) else papers
  else papers

/-- `load_papers_from_txt` (source lines 105-124) applied to the contents
of the file: run the loading loop over the lines of the file, as
text-mode reading with universal newlines produces them. -/
def load_papers_from_txt (content : String) : Papers :=
  (splitNewlines content.toList).foldl loadLine []

/-- Reading `papers[name]` with default 0; `edit_paper` only uses it for a
name that is present. -/
def lookupD (ps : Papers) (name : String) : Nat :=
  ((ps.find? (fun p => p.1 == name)).map Prod.snd).getD 0

/-- The state change and report of `edit_paper` (source lines 235-263),
with the interactive prompts replaced by the parameters they produce: the
requested `name`, the normalized `action` string, the new citation count
for `edit` and the new name for `rename`.  The returned string is the
message printed for the chosen branch. -/
def edit_paper (ps : Papers) (name action : String) (newCit : Nat)
    (newName : String) : Papers × String :=
  if ps.isEmpty then (ps, "No papers to edit.\n")
  else if !(ps.any (fun p => p.1 == name)) then (ps, "Paper not found.\n")
  else if action = "edit" then
    (ps.map (fun p => if p.1 == name then (p.1, newCit) else p),
     "Updated successfully.\n")
  else if action = "rename" then
    if newName ≠ "" then
      (pinsert (ps.filter (fun p => p.1 != name)) newName (lookupD ps name),
       "Renamed successfully.\n")
    else (ps, "")
  else if action = "delete" then
    (ps.filter (fun p => p.1 != name), "Deleted successfully.\n")
  else (ps, "Invalid action.\n")

/-- Spec-side count: the number of papers whose citation count is at least
`t` (the phrase "at least h papers each have citation count >= h"). -/
def specCount (ps : Papers) (t : Nat) : Nat :=
  (pvalues ps).countP (fun c => decide (t ≤ c))

/-- Spec-side relation for monotonicity under citation increase: the two
records carry the same name and the count does not decrease. -/
def citIncrease (p q : String × Nat) : Prop := p.1 = q.1 ∧ p.2 ≤ q.2

/-- A name round-trips through the text format: non-empty, free of the
field separator and of both line terminators, and not starting with
whitespace that `strip()` would remove. -/
def wfName (n : String) : Bool :=
  !(n.toList.isEmpty) &&
    n.toList.all (fun c => c != '|' && c != '\n' && c != '\x0d') &&
    !isPySpace (n.toList.headD '|')

/-! ## Properties of the h-index loop -/

theorem hAux_ge (cs : List Nat) (i h : Nat) (hh : h ≤ i) : h ≤ hAux cs i h := by
  induction cs generalizing i h with
  | nil => exact le_refl h
  | cons c cs ih =>
    simp only [hAux]
    by_cases hc : i ≤ c
    · rw [if_pos hc]
      exact le_trans hh (ih (i + 1) i (Nat.le_succ i))
    · rw [if_neg hc]
      exact ih (i + 1) h (le_trans hh (Nat.le_succ i))

theorem hAux_max (cs : List Nat) (i h : Nat) (k : Nat) (hk : k < cs.length)
    (hv : i + k ≤ cs.get ⟨k, hk⟩) : i + k ≤ hAux cs i h := by
  induction cs generalizing i h k with
  | nil => exact absurd hk (by simp)
  | cons c cs ih =>
    cases k with
    | zero =>
      have hc : i ≤ c := by simpa using hv
      simp only [hAux, if_pos hc]
      have := hAux_ge cs (i + 1) i (Nat.le_succ i)
      omega
    | succ k =>
      have hk' : k < cs.length := by simpa using hk
      have hg : (c :: cs).get ⟨k + 1, hk⟩ = cs.get ⟨k, hk'⟩ := rfl
      rw [hg] at hv
      simp only [hAux]
      have := ih (i + 1) (if i ≤ c then i else h) k hk' (by omega)
      omega

theorem hAux_spec (cs : List Nat) (i h : Nat) :
    hAux cs i h = h ∨
      ∃ k, ∃ hk : k < cs.length, hAux cs i h = i + k ∧ i + k ≤ cs.get ⟨k, hk⟩ := by
  induction cs generalizing i h with
  | nil => exact Or.inl rfl
  | cons c cs ih =>
    simp only [hAux]
    by_cases hc : i ≤ c
    · rw [if_pos hc]
      rcases ih (i + 1) i with h0 | ⟨k, hk, he, hv⟩
      · refine Or.inr ⟨0, by simp, by simpa using h0, by simpa using hc⟩
      · have hlt : k + 1 < (c :: cs).length := by simpa using Nat.succ_lt_succ hk
        refine Or.inr ⟨k + 1, hlt, by omega, ?_⟩
        show i + (k + 1) ≤ cs.get ⟨k, hk⟩
        omega
    · rw [if_neg hc]
      rcases ih (i + 1) h with h0 | ⟨k, hk, he, hv⟩
      · exact Or.inl h0
      · have hlt : k + 1 < (c :: cs).length := by simpa using Nat.succ_lt_succ hk
        refine Or.inr ⟨k + 1, hlt, by omega, ?_⟩
        show i + (k + 1) ≤ cs.get ⟨k, hk⟩
        omega

/-- In a descending-sorted list, the entry at 0-based position `k` is at
least `t` exactly when more than `k` entries are at least `t`. -/
theorem sorted_get_iff (cs : List Nat) (hs : List.Sorted geNat cs) (t : Nat) (k : Nat)
    (hk : k < cs.length) :
    t ≤ cs.get ⟨k, hk⟩ ↔ k < cs.countP (fun c => decide (t ≤ c)) := by
  induction cs generalizing k with
  | nil => simp at hk
  | cons c cs ih =>
    rw [List.sorted_cons] at hs
    obtain ⟨hhead, htail⟩ := hs
    cases k with
    | zero =>
      show t ≤ c ↔ _
      by_cases hc : t ≤ c
      · rw [List.countP_cons_of_pos _ _ (by simpa using hc)]
        exact iff_of_true hc (by omega)
      · rw [List.countP_cons_of_neg _ _ (by simpa using hc)]
        constructor
        · intro hle
          exact absurd hle hc
        · intro hpos
          obtain ⟨b, hb, hbt⟩ := List.countP_pos_iff.mp hpos
          have h1 : t ≤ b := by simpa using hbt
          exact le_trans h1 (hhead b hb)
    | succ k =>
      have hk' : k < cs.length := by simpa using hk
      rw [show (c :: cs).get ⟨k + 1, hk⟩ = cs.get ⟨k, hk'⟩ from rfl]
      rw [ih htail k hk']
      by_cases hc : t ≤ c
      · rw [List.countP_cons_of_pos _ _ (by simpa using hc)]
        omega
      · have hzero : cs.countP (fun x => decide (t ≤ x)) = 0 := by
          rw [List.countP_eq_zero]
          intro b hb hbt
          have h1 : t ≤ b := by simpa using hbt
          exact hc (le_trans h1 (hhead b hb))
        rw [List.countP_cons_of_neg _ _ (by simpa using hc), hzero]
        omega

theorem h_index_le_length (ps : Papers) : h_index ps ≤ ps.length := by
  unfold h_index
  rcases hAux_spec (List.insertionSort geNat (pvalues ps)) 1 0 with h0 | ⟨k, hk, he, _⟩
  · rw [h0]; exact Nat.zero_le _
  · rw [he]
    have hlen : (List.insertionSort geNat (pvalues ps)).length = ps.length := by
      rw [List.length_insertionSort]; simp [pvalues]
    omega

theorem h_index_valid (ps : Papers) : h_index ps ≤ specCount ps (h_index ps) := by
  unfold h_index specCount
  rcases hAux_spec (List.insertionSort geNat (pvalues ps)) 1 0 with h0 | ⟨k, hk, he, hv⟩
  · rw [h0]; exact Nat.zero_le _
  · rw [he]
    have hs : List.Sorted geNat (List.insertionSort geNat (pvalues ps)) :=
      List.sorted_insertionSort geNat (pvalues ps)
    have hbridge := (sorted_get_iff _ hs (1 + k) k hk).mp hv
    have hperm :
        (List.insertionSort geNat (pvalues ps)).countP (fun c => decide (1 + k ≤ c)) =
          (pvalues ps).countP (fun c => decide (1 + k ≤ c)) :=
      (List.perm_insertionSort geNat (pvalues ps)).countP_eq _
    omega

theorem h_index_greatest (ps : Papers) (t : Nat) (hv : t ≤ specCount ps t) :
    t ≤ h_index ps := by
  unfold specCount at hv
  unfold h_index
  have hperm :
      (List.insertionSort geNat (pvalues ps)).countP (fun c => decide (t ≤ c)) =
        (pvalues ps).countP (fun c => decide (t ≤ c)) :=
    (List.perm_insertionSort geNat (pvalues ps)).countP_eq _
  rw [← hperm] at hv
  rcases Nat.eq_zero_or_pos t with rfl | hpos
  · exact Nat.zero_le _
  · have hle : (List.insertionSort geNat (pvalues ps)).countP (fun c => decide (t ≤ c)) ≤
        (List.insertionSort geNat (pvalues ps)).length := List.countP_le_length _
    have hklen : t - 1 < (List.insertionSort geNat (pvalues ps)).length := by omega
    have hs : List.Sorted geNat (List.insertionSort geNat (pvalues ps)) :=
      List.sorted_insertionSort geNat (pvalues ps)
    have hget : t ≤ (List.insertionSort geNat (pvalues ps)).get ⟨t - 1, hklen⟩ := by
      rw [sorted_get_iff _ hs t (t - 1) hklen]
      omega
    have hm := hAux_max (List.insertionSort geNat (pvalues ps)) 1 0 (t - 1) hklen (by omega)
    omega

theorem specCount_mono (ps ps' : Papers) (hrel : List.Forall₂ citIncrease ps ps')
    (t : Nat) : specCount ps t ≤ specCount ps' t := by
  unfold specCount pvalues
  induction hrel with
  | nil => exact le_refl _
  | @cons x y l1 l2 h1 h2 ih =>
    simp only [List.map_cons]
    have hxy : x.2 ≤ y.2 := h1.2
    by_cases hc : t ≤ x.2
    · have hc2 : t ≤ y.2 := le_trans hc hxy
      rw [List.countP_cons_of_pos _ _ (by simpa using hc),
        List.countP_cons_of_pos _ _ (by simpa using hc2)]
      omega
    · rw [List.countP_cons_of_neg _ _ (by simpa using hc)]
      by_cases hc2 : t ≤ y.2
      · rw [List.countP_cons_of_pos _ _ (by simpa using hc2)]
        omega
      · rw [List.countP_cons_of_neg _ _ (by simpa using hc2)]
        omega

/-- C1: for every paper collection, `h_index` returns the maximum value `h`
such that at least `h` papers each have citation count at least `h`, and
the empty collection yields 0. -/
theorem h_index_is_max_h (ps : Papers) :
    h_index ps ≤ specCount ps (h_index ps) ∧
      (∀ h : Nat, h ≤ specCount ps h → h ≤ h_index ps) ∧
      (ps = [] → h_index ps = 0) :=
  ⟨h_index_valid ps, fun h hh => h_index_greatest ps h hh, by rintro rfl; rfl⟩

/-- Witness for C1 at the collection A:10, B:10, C:10, D:1 (h-index 3) and
at the empty collection. -/
theorem h_index_is_max_h_witness :
    3 ≤ specCount [("A", 10), ("B", 10), ("C", 10), ("D", 1)] 3 ∧
      3 ≤ h_index [("A", 10), ("B", 10), ("C", 10), ("D", 1)] ∧
      h_index ([] : Papers) = 0 :=
  ⟨by decide,
    (h_index_is_max_h [("A", 10), ("B", 10), ("C", 10), ("D", 1)]).2.1 3 (by decide),
    (h_index_is_max_h []).2.2 rfl⟩

/-- C4: `h_index` never exceeds the number of papers, and increasing some
citation counts (same names, none decreased) cannot decrease it. -/
theorem h_index_le_and_monotone :
    (∀ ps : Papers, h_index ps ≤ ps.length) ∧
      ∀ ps ps' : Papers, List.Forall₂ citIncrease ps ps' → h_index ps ≤ h_index ps' := by
  refine ⟨h_index_le_length, fun ps ps' hrel => ?_⟩
  exact h_index_greatest ps' (h_index ps)
    (le_trans (h_index_valid ps) (specCount_mono ps ps' hrel (h_index ps)))

/-- Witness for C4: raising A's count from 2 to 5 with B fixed at 3. -/
theorem h_index_le_and_monotone_witness :
    h_index [("A", 2), ("B", 3)] ≤ 2 ∧
      h_index [("A", 2), ("B", 3)] ≤ h_index [("A", 5), ("B", 3)] := by
  have hrel : List.Forall₂ citIncrease [("A", 2), ("B", 3)] [("A", 5), ("B", 3)] :=
    List.Forall₂.cons ⟨rfl, by omega⟩ (List.Forall₂.cons ⟨rfl, by omega⟩ List.Forall₂.nil)
  exact ⟨h_index_le_and_monotone.1 _, h_index_le_and_monotone.2 _ _ hrel⟩

/-! ## The threshold-count dictionary -/

theorem lookup_eq_of_good (ps : Papers) (d : List (Int × Nat)) (k : Int)
    (hg : ∀ p ∈ d, p.2 = countAtLeastI ps p.1) (hk : k ∈ d.map Prod.fst) :
    pylookup d k = some (countAtLeastI ps k) := by
  unfold pylookup
  obtain ⟨p, hp, hpk⟩ := List.mem_map.mp hk
  have hfind : (d.find? (fun q => q.1 == k)).isSome := by
    rw [List.find?_isSome]
    exact ⟨p, hp, by simp [hpk]⟩
  obtain ⟨q, hq⟩ := Option.isSome_iff_exists.mp hfind
  rw [hq]
  have hqv := hg q (List.mem_of_find?_eq_some hq)
  have hqk : q.1 = k := by simpa using List.find?_some hq
  simp [hqv, hqk]

theorem dinsert_good (ps : Papers) (d : List (Int × Nat)) (k : Int)
    (hg : ∀ p ∈ d, p.2 = countAtLeastI ps p.1) :
    ∀ p ∈ dinsert d k (countAtLeastI ps k), p.2 = countAtLeastI ps p.1 := by
  intro p hp
  unfold dinsert at hp
  by_cases h : d.any (fun q => q.1 == k) = true
  · rw [if_pos h] at hp
    obtain ⟨q, hq, hqe⟩ := List.mem_map.mp hp
    by_cases hqk : (q.1 == k) = true
    · rw [if_pos hqk] at hqe
      have hqk' : q.1 = k := by simpa using hqk
      rw [← hqe]
      simp [hqk']
    · rw [if_neg hqk] at hqe
      rw [← hqe]
      exact hg q hq
  · rw [if_neg h] at hp
    rcases List.mem_append.mp hp with hmem | hmem
    · exact hg p hmem
    · have : p = (k, countAtLeastI ps k) := by simpa using hmem
      rw [this]

theorem dinsert_keys (d : List (Int × Nat)) (k : Int) (v : Nat) (j : Int)
    (hj : j ∈ d.map Prod.fst ∨ j = k) : j ∈ (dinsert d k v).map Prod.fst := by
  unfold dinsert
  by_cases h : d.any (fun q => q.1 == k) = true
  · rw [if_pos h]
    have hkeys : (d.map (fun p => if p.1 == k then (p.1, v) else p)).map Prod.fst =
        d.map Prod.fst := by
      rw [List.map_map]
      apply List.map_congr_left
      intro p _
      by_cases hc : p.1 = k <;> simp [hc]
    rw [hkeys]
    rcases hj with hj | rfl
    · exact hj
    · obtain ⟨q, hq, hqk⟩ := List.any_eq_true.mp h
      have : q.1 = j := by simpa using hqk
      exact List.mem_map.mpr ⟨q, hq, this⟩
  · rw [if_neg h, List.map_append]
    rcases hj with hj | rfl
    · exact List.mem_append.mpr (Or.inl hj)
    · exact List.mem_append.mpr (Or.inr (by simp))

theorem cat_fold_good (ps : Papers) (ts : List Int) (d : List (Int × Nat))
    (hg : ∀ p ∈ d, p.2 = countAtLeastI ps p.1) :
    ∀ p ∈ ts.foldl (fun d t => dinsert d t (countAtLeastI ps t)) d,
      p.2 = countAtLeastI ps p.1 := by
  induction ts generalizing d with
  | nil => exact hg
  | cons t ts ih => exact ih _ (dinsert_good ps d t hg)

theorem cat_fold_keys (ps : Papers) (ts : List Int) (d : List (Int × Nat)) (j : Int)
    (hj : j ∈ d.map Prod.fst) :
    j ∈ (ts.foldl (fun d t => dinsert d t (countAtLeastI ps t)) d).map Prod.fst := by
  induction ts generalizing d with
  | nil => exact hj
  | cons t ts ih => exact ih _ (dinsert_keys d t _ j (Or.inl hj))

theorem cat_fold_mem (ps : Papers) (ts : List Int) (d : List (Int × Nat)) (t : Int) :
    t ∈ ts → t ∈ (ts.foldl (fun d t => dinsert d t (countAtLeastI ps t)) d).map Prod.fst := by
  induction ts generalizing d with
  | nil => intro ht; simp at ht
  | cons t0 ts ih =>
    intro ht
    rcases List.mem_cons.mp ht with rfl | hmem
    · exact cat_fold_keys ps ts _ t (dinsert_keys d t _ t (Or.inr rfl))
    · exact ih _ hmem

/-- C2: `count_above_thresholds` maps every requested threshold `t` to the
number of papers with at least `t` citations, and on thresholds `[5, 15]`
over X:20, Y:10, Z:2 it yields the mapping 5 to 2, 15 to 1. -/
theorem count_above_thresholds_spec :
    (∀ (ps : Papers) (ts : List Int), ∀ t ∈ ts,
        pylookup (count_above_thresholds ps ts) t = some (countAtLeastI ps t)) ∧
      count_above_thresholds [("X", 20), ("Y", 10), ("Z", 2)] [5, 15] =
        [(5, 2), (15, 1)] := by
  constructor
  · intro ps ts t ht
    unfold count_above_thresholds
    apply lookup_eq_of_good ps
    · exact cat_fold_good ps ts [] (by intro p hp; cases hp)
    · exact cat_fold_mem ps ts [] t ht
  · decide

/-- Witness for C2 at threshold 5 of the spec's example. -/
theorem count_above_thresholds_spec_witness :
    (5 : Int) ∈ [(5 : Int), 15] ∧
      pylookup (count_above_thresholds [("X", 20), ("Y", 10), ("Z", 2)] [5, 15]) 5 =
        some (countAtLeastI [("X", 20), ("Y", 10), ("Z", 2)] 5) :=
  ⟨by decide, count_above_thresholds_spec.1 _ _ 5 (by decide)⟩

/-- C6: `i10_index` counts the papers with at least 10 citations and agrees
with the entry that `count_above_thresholds` at thresholds `[10]` assigns
to the threshold 10. -/
theorem i10_index_spec (ps : Papers) :
    i10_index ps = specCount ps 10 ∧
      pylookup (count_above_thresholds ps [10]) 10 = some (i10_index ps) := by
  have h2 : countAtLeastI ps 10 = i10_index ps := by
    unfold countAtLeastI i10_index
    have hpt : ∀ c ∈ pvalues ps, (decide ((10 : Int) ≤ (c : Int))) = (decide (10 ≤ c)) :=
      fun c _ => decide_eq_decide.mpr (by omega)
    rw [List.filter_congr hpt]
  constructor
  · unfold i10_index specCount
    rw [List.countP_eq_length_filter]
  · have hl : pylookup (count_above_thresholds ps [10]) 10 =
        some (countAtLeastI ps 10) := by
      unfold count_above_thresholds
      exact lookup_eq_of_good ps _ _ (cat_fold_good ps [10] [] (by intro p hp; cases hp))
        (cat_fold_mem ps [10] [] 10 (by simp))
    rw [hl, h2]

/-! ## Sorting and editing guards -/

/-- C9: any mode other than "citations" and "name" makes
`get_sorted_papers` return its input unchanged. -/
theorem get_sorted_papers_other_mode (ps : Papers) (mode : String)
    (h1 : mode ≠ "citations") (h2 : mode ≠ "name") :
    get_sorted_papers ps mode = ps := by
  unfold get_sorted_papers
  rw [if_neg h1, if_neg h2]

/-- Witness for C9 with the unrecognized mode "bogus". -/
theorem get_sorted_papers_other_mode_witness :
    get_sorted_papers [("B", 2), ("A", 9)] "bogus" = [("B", 2), ("A", 9)] :=
  get_sorted_papers_other_mode [("B", 2), ("A", 9)] "bogus" (by decide) (by decide)

/-- C8: on a non-empty collection, `edit_paper` reports "Paper not found."
and changes nothing when the name is absent, and reports "Invalid action."
and changes nothing when the name is present but the action is not one of
edit, rename, delete. -/
theorem edit_paper_guards (ps : Papers) (name action : String) (newCit : Nat)
    (newName : String) (hne : ps ≠ []) :
    (name ∉ pkeys ps →
        edit_paper ps name action newCit newName = (ps, "Paper not found.\n")) ∧
      (name ∈ pkeys ps → action ≠ "edit" → action ≠ "rename" → action ≠ "delete" →
        edit_paper ps name action newCit newName = (ps, "Invalid action.\n")) := by
  have hnotempty : ps.isEmpty = false := by
    cases ps
    · exact absurd rfl hne
    · rfl
  constructor
  · intro hmem
    have hany : ps.any (fun p => p.1 == name) = false := by
      rw [List.any_eq_false]
      intro p hp hpe
      have : p.1 = name := by simpa using hpe
      exact hmem (List.mem_map.mpr ⟨p, hp, this⟩)
    unfold edit_paper
    rw [if_neg (by simp [hnotempty]), if_pos (by simp [hany])]
  · intro hmem h1 h2 h3
    have hany : ps.any (fun p => p.1 == name) = true := by
      rw [List.any_eq_true]
      obtain ⟨p, hp, hpe⟩ := List.mem_map.mp hmem
      exact ⟨p, hp, by simp [hpe]⟩
    unfold edit_paper
    rw [if_neg (by simp [hnotempty]), if_neg (by simp [hany]), if_neg h1, if_neg h2,
      if_neg h3]

/-- Witness for C8: an absent name, and a present name with action
"smash". -/
theorem edit_paper_guards_witness :
    edit_paper [("A", 3)] "B" "edit" 5 "" = ([("A", 3)], "Paper not found.\n") ∧
      edit_paper [("A", 3)] "A" "smash" 5 "" = ([("A", 3)], "Invalid action.\n") :=
  ⟨(edit_paper_guards [("A", 3)] "B" "edit" 5 "" (by decide)).1 (by decide),
    (edit_paper_guards [("A", 3)] "A" "smash" 5 "" (by decide)).2 (by decide)
      (by decide) (by decide) (by decide)⟩

/-- C10: the report on the empty collection is exactly
"No papers available.\n"; the statistics of the non-empty branch are never
computed. -/
theorem generate_summary_report_empty :
    generate_summary_report [] = "No papers available.\n" := rfl

/-! ## Stability and idempotence of sorting -/

/-- A stable sort leaves any block of mutually tied elements in its
original relative order: filtering the sorted list by a predicate that
only selects tied elements gives the same list as filtering the input. -/
theorem insertionSort_filter_stable {α : Type} (r : α → α → Prop) [DecidableRel r]
    (l : List α) (p : α → Bool) (htied : ∀ a b, p a = true → p b = true → r a b) :
    (List.insertionSort r l).filter p = l.filter p := by
  have hself : (l.filter p).filter p = l.filter p :=
    List.filter_eq_self.mpr (fun a ha => List.of_mem_filter ha)
  have hsub : List.Sublist (l.filter p) (List.insertionSort r l) := by
    apply List.sublist_insertionSort
    · exact List.pairwise_of_forall_mem_list
        (fun a ha b hb => htied a b (List.of_mem_filter ha) (List.of_mem_filter hb))
    · exact List.filter_sublist l
  have hsub2 : List.Sublist (l.filter p) ((List.insertionSort r l).filter p) := by
    have h := hsub.filter p
    rwa [hself] at h
  have hlen : ((List.insertionSort r l).filter p).length = (l.filter p).length := by
    rw [← List.countP_eq_length_filter, ← List.countP_eq_length_filter]
    exact (List.perm_insertionSort r l).countP_eq p
  exact (hsub2.eq_of_length hlen.symm).symm

/-- C7: for both sort modes, `get_sorted_papers` returns a permutation of
the collection that is sorted for the mode's order, ties keep their
original relative order (stability), and sorting an already-sorted view
again yields the identical list (idempotence).  The input collection
itself is never modified: the result is a new list. -/
theorem get_sorted_papers_spec (ps : Papers) :
    (get_sorted_papers ps "citations").Perm ps ∧
      List.Sorted citLE (get_sorted_papers ps "citations") ∧
      (∀ c : Nat, (get_sorted_papers ps "citations").filter (fun p => p.2 == c) =
        ps.filter (fun p => p.2 == c)) ∧
      get_sorted_papers (get_sorted_papers ps "citations") "citations" =
        get_sorted_papers ps "citations" ∧
      (get_sorted_papers ps "name").Perm ps ∧
      List.Sorted nameLE (get_sorted_papers ps "name") ∧
      (∀ n : String, (get_sorted_papers ps "name").filter (fun p => p.1 == n) =
        ps.filter (fun p => p.1 == n)) ∧
      get_sorted_papers (get_sorted_papers ps "name") "name" =
        get_sorted_papers ps "name" := by
  have hc : get_sorted_papers ps "citations" = List.insertionSort citLE ps := by
    unfold get_sorted_papers
    rw [if_pos rfl]
  have hn : get_sorted_papers ps "name" = List.insertionSort nameLE ps := by
    unfold get_sorted_papers
    rw [if_neg (by decide), if_pos rfl]
  refine ⟨?_, ?_, ?_, ?_, ?_, ?_, ?_, ?_⟩
  · rw [hc]
    exact List.perm_insertionSort citLE ps
  · rw [hc]
    exact List.sorted_insertionSort citLE ps
  · intro c
    rw [hc]
    apply insertionSort_filter_stable citLE ps _
    intro a b ha hb
    have h1 : a.2 = c := by simpa using ha
    have h2 : b.2 = c := by simpa using hb
    unfold citLE
    omega
  · rw [hc]
    unfold get_sorted_papers
    rw [if_pos rfl]
    exact List.Sorted.insertionSort_eq (List.sorted_insertionSort citLE ps)
  · rw [hn]
    exact List.perm_insertionSort nameLE ps
  · rw [hn]
    exact List.sorted_insertionSort nameLE ps
  · intro n
    rw [hn]
    apply insertionSort_filter_stable nameLE ps _
    intro a b ha hb
    have h1 : a.1 = n := by simpa using ha
    have h2 : b.1 = n := by simpa using hb
    unfold nameLE
    rw [h1, h2]
  · rw [hn]
    unfold get_sorted_papers
    rw [if_neg (by decide), if_pos rfl]
    exact List.Sorted.insertionSort_eq (List.sorted_insertionSort nameLE ps)

/-! ## Outlier detection -/

theorem detect_fold_split (vs : List Nat) (l : List (String × Nat))
    (acc : List (String × Nat) × List (String × Nat)) :
    l.foldl (fun acc p =>
        if highOutlierB vs p.2 then (acc.1 ++ [p], acc.2)
        else if lowOutlierB vs p.2 then (acc.1, acc.2 ++ [p])
        else acc) acc =
      (acc.1 ++ l.filter (fun p => highOutlierB vs p.2),
        acc.2 ++ l.filter (fun p => !highOutlierB vs p.2 && lowOutlierB vs p.2)) := by
  induction l generalizing acc with
  | nil => simp
  | cons p l ih =>
    rw [List.foldl_cons, ih]
    by_cases hh : highOutlierB vs p.2 = true
    · rw [if_pos hh]
      simp [List.filter_cons, hh]
    · rw [if_neg hh]
      by_cases hl : lowOutlierB vs p.2 = true
      · rw [if_pos hl]
        simp [List.filter_cons, hh, hl]
      · rw [if_neg hl]
        simp [List.filter_cons, hh, hl]

/-- The `if`/`elif` of the outlier loop never sends a paper to both lists:
a strictly-above-mean count cannot also be strictly below it. -/
theorem high_low_exclusive (vs : List Nat) (c : Nat) :
    (!highOutlierB vs c && lowOutlierB vs c) = lowOutlierB vs c := by
  unfold highOutlierB lowOutlierB
  by_cases hd : 0 < devI vs c
  · have h2 : ¬(devI vs c < 0) := by omega
    simp [hd, h2]
  · simp [hd]

theorem devI_cast (vs : List Nat) (hn0 : (vs.length : ℚ) ≠ 0) (x : Nat) :
    (devI vs x : ℚ) = (vs.length : ℚ) * ((x : ℚ) - meanQ vs) := by
  unfold devI meanQ
  push_cast [Nat.cast_list_sum]
  field_simp
  congr 1

theorem ssDevI_cast (vs : List Nat) (h2 : 2 ≤ vs.length) :
    (ssDevI vs : ℚ) =
      (vs.length : ℚ) ^ 2 * (((vs.length : ℚ) - 1) * sampleVarQ vs) := by
  have hn : (2 : ℚ) ≤ (vs.length : ℚ) := by exact_mod_cast h2
  have hpos : (0 : ℚ) < (vs.length : ℚ) := by linarith
  have hn0 : ((vs.length : ℚ)) ≠ 0 := ne_of_gt hpos
  have hn1 : ((vs.length : ℚ) - 1) ≠ 0 := ne_of_gt (by linarith)
  unfold ssDevI
  rw [Int.cast_list_sum, List.map_map]
  have hstep : ∀ v ∈ vs,
      (((↑) : Int → ℚ) ∘ fun v => devI vs v ^ 2) v =
        (vs.length : ℚ) ^ 2 * ((v : ℚ) - meanQ vs) ^ 2 := by
    intro v _
    have hc : (((devI vs v ^ 2 : Int)) : ℚ) = ((devI vs v : Int) : ℚ) ^ 2 := by
      push_cast
      ring
    simp only [Function.comp_apply]
    rw [hc, devI_cast vs hn0 v]
    ring
  rw [List.map_congr_left hstep, List.sum_map_mul_left]
  unfold sampleVarQ
  field_simp

theorem sampleVarQ_nonneg (vs : List Nat) (h2 : 2 ≤ vs.length) :
    0 ≤ sampleVarQ vs := by
  have hn : (2 : ℚ) ≤ (vs.length : ℚ) := by exact_mod_cast h2
  unfold sampleVarQ
  apply div_nonneg
  · apply List.sum_nonneg
    intro x hx
    obtain ⟨v, _, rfl⟩ := List.mem_map.mp hx
    positivity
  · linarith

theorem highOutlierB_iff_q (vs : List Nat) (h2 : 2 ≤ vs.length) (c : Nat) :
    highOutlierB vs c = true ↔
      (meanQ vs < (c : ℚ) ∧ 4 * sampleVarQ vs < ((c : ℚ) - meanQ vs) ^ 2) := by
  have hn : (2 : ℚ) ≤ (vs.length : ℚ) := by exact_mod_cast h2
  have hpos : (0 : ℚ) < (vs.length : ℚ) := by linarith
  have hn0 : ((vs.length : ℚ)) ≠ 0 := ne_of_gt hpos
  have hdev := devI_cast vs hn0 c
  have hss := ssDevI_cast vs h2
  have hQpos : (0 : ℚ) < (vs.length : ℚ) ^ 2 * ((vs.length : ℚ) - 1) := by nlinarith
  unfold highOutlierB
  rw [Bool.and_eq_true, decide_eq_true_eq, decide_eq_true_eq]
  constructor
  · rintro ⟨hd, hs⟩
    have hdq : (0 : ℚ) < (devI vs c : ℚ) := by exact_mod_cast hd
    rw [hdev] at hdq
    have hx : 0 < (c : ℚ) - meanQ vs := by nlinarith
    refine ⟨by linarith, ?_⟩
    have hsq : 4 * (ssDevI vs : ℚ) <
        (((vs.length : Int) - 1 : Int) : ℚ) * (devI vs c : ℚ) ^ 2 := by
      exact_mod_cast hs
    rw [hdev, hss] at hsq
    push_cast at hsq
    have h1 : ((vs.length : ℚ) ^ 2 * ((vs.length : ℚ) - 1)) * (4 * sampleVarQ vs) <
        ((vs.length : ℚ) ^ 2 * ((vs.length : ℚ) - 1)) * (((c : ℚ) - meanQ vs) ^ 2) := by
      nlinarith [hsq]
    exact lt_of_mul_lt_mul_left h1 (le_of_lt hQpos)
  · rintro ⟨hμ, hV⟩
    have hx : (0 : ℚ) < (c : ℚ) - meanQ vs := by linarith
    constructor
    · have hq : (0 : ℚ) < (devI vs c : ℚ) := by
        rw [hdev]
        exact mul_pos hpos hx
      exact_mod_cast hq
    · have h1 : ((vs.length : ℚ) ^ 2 * ((vs.length : ℚ) - 1)) * (4 * sampleVarQ vs) <
          ((vs.length : ℚ) ^ 2 * ((vs.length : ℚ) - 1)) * (((c : ℚ) - meanQ vs) ^ 2) :=
        (mul_lt_mul_left hQpos).mpr hV
      have h2' : 4 * (ssDevI vs : ℚ) <
          (((vs.length : Int) - 1 : Int) : ℚ) * (devI vs c : ℚ) ^ 2 := by
        rw [hdev, hss]
        push_cast
        nlinarith [h1]
      exact_mod_cast h2'

theorem lowOutlierB_iff_q (vs : List Nat) (h2 : 2 ≤ vs.length) (c : Nat) :
    lowOutlierB vs c = true ↔
      ((c : ℚ) < meanQ vs ∧ 4 * sampleVarQ vs < (meanQ vs - (c : ℚ)) ^ 2) := by
  have hn : (2 : ℚ) ≤ (vs.length : ℚ) := by exact_mod_cast h2
  have hpos : (0 : ℚ) < (vs.length : ℚ) := by linarith
  have hn0 : ((vs.length : ℚ)) ≠ 0 := ne_of_gt hpos
  have hdev := devI_cast vs hn0 c
  have hss := ssDevI_cast vs h2
  have hQpos : (0 : ℚ) < (vs.length : ℚ) ^ 2 * ((vs.length : ℚ) - 1) := by nlinarith
  unfold lowOutlierB
  rw [Bool.and_eq_true, decide_eq_true_eq, decide_eq_true_eq]
  constructor
  · rintro ⟨hd, hs⟩
    have hdq : (devI vs c : ℚ) < 0 := by exact_mod_cast hd
    rw [hdev] at hdq
    have hx : 0 < meanQ vs - (c : ℚ) := by nlinarith
    refine ⟨by linarith, ?_⟩
    have hsq : 4 * (ssDevI vs : ℚ) <
        (((vs.length : Int) - 1 : Int) : ℚ) * (devI vs c : ℚ) ^ 2 := by
      exact_mod_cast hs
    rw [hdev, hss] at hsq
    push_cast at hsq
    have h1 : ((vs.length : ℚ) ^ 2 * ((vs.length : ℚ) - 1)) * (4 * sampleVarQ vs) <
        ((vs.length : ℚ) ^ 2 * ((vs.length : ℚ) - 1)) * ((meanQ vs - (c : ℚ)) ^ 2) := by
      nlinarith [hsq]
    exact lt_of_mul_lt_mul_left h1 (le_of_lt hQpos)
  · rintro ⟨hμ, hV⟩
    have hx : (0 : ℚ) < meanQ vs - (c : ℚ) := by linarith
    constructor
    · have hq : (devI vs c : ℚ) < 0 := by
        rw [hdev]
        nlinarith
      exact_mod_cast hq
    · have h1 : ((vs.length : ℚ) ^ 2 * ((vs.length : ℚ) - 1)) * (4 * sampleVarQ vs) <
          ((vs.length : ℚ) ^ 2 * ((vs.length : ℚ) - 1)) * ((meanQ vs - (c : ℚ)) ^ 2) :=
        (mul_lt_mul_left hQpos).mpr hV
      have h2' : 4 * (ssDevI vs : ℚ) <
          (((vs.length : Int) - 1 : Int) : ℚ) * (devI vs c : ℚ) ^ 2 := by
        rw [hdev, hss]
        push_cast
        nlinarith [h1]
      exact_mod_cast h2'

/-- `2 * sqrt V < x` without the square root, for non-negative `V`. -/
theorem two_sqrt_lt_iff (V x : ℝ) (hV : 0 ≤ V) :
    2 * Real.sqrt V < x ↔ (0 < x ∧ 4 * V < x ^ 2) := by
  have hs : Real.sqrt V ^ 2 = V := Real.sq_sqrt hV
  have hs0 : 0 ≤ Real.sqrt V := Real.sqrt_nonneg V
  constructor
  · intro h
    refine ⟨by linarith, ?_⟩
    nlinarith
  · rintro ⟨hx, hxx⟩
    nlinarith

/-- C5: with at least 2 papers, the outlier loop yields exactly the papers
with `count > mean + 2 * stdev` as high outliers and exactly those with
`count < mean - 2 * stdev` as low outliers, in original collection order
(it is a filter of the collection); with fewer than 2 papers both lists
are empty whatever the counts. -/
theorem detect_outliers_spec (ps : Papers) :
    (2 ≤ ps.length →
        (detect_outliers ps).1 = ps.filter (fun p => highOutlierB (pvalues ps) p.2) ∧
          (detect_outliers ps).2 = ps.filter (fun p => lowOutlierB (pvalues ps) p.2) ∧
          (∀ c : Nat, highOutlierB (pvalues ps) c = true ↔
            ((meanQ (pvalues ps) : ℝ) +
                2 * Real.sqrt ((sampleVarQ (pvalues ps) : ℝ)) < (c : ℝ))) ∧
          (∀ c : Nat, lowOutlierB (pvalues ps) c = true ↔
            ((c : ℝ) < (meanQ (pvalues ps) : ℝ) -
                2 * Real.sqrt ((sampleVarQ (pvalues ps) : ℝ))))) ∧
      (ps.length < 2 → detect_outliers ps = ([], [])) := by
  constructor
  · intro h2
    have h2' : 2 ≤ (pvalues ps).length := by simpa [pvalues] using h2
    have hgt : 1 < ps.length := by omega
    have hV0 : (0 : ℝ) ≤ ((sampleVarQ (pvalues ps) : ℚ) : ℝ) := by
      exact_mod_cast sampleVarQ_nonneg (pvalues ps) h2'
    refine ⟨?_, ?_, ?_, ?_⟩
    · unfold detect_outliers
      rw [if_pos hgt, detect_fold_split (pvalues ps) ps ([], [])]
      show [] ++ _ = _
      rw [List.nil_append]
    · unfold detect_outliers
      rw [if_pos hgt, detect_fold_split (pvalues ps) ps ([], [])]
      show [] ++ _ = _
      rw [List.nil_append]
      exact List.filter_congr (fun p _ => high_low_exclusive (pvalues ps) p.2)
    · intro c
      rw [highOutlierB_iff_q (pvalues ps) h2' c]
      have hbr := two_sqrt_lt_iff ((sampleVarQ (pvalues ps) : ℝ))
        ((c : ℝ) - ((meanQ (pvalues ps) : ℚ) : ℝ)) hV0
      constructor
      · rintro ⟨ha, hb⟩
        have ha' : ((meanQ (pvalues ps) : ℚ) : ℝ) < (c : ℝ) := by exact_mod_cast ha
        have hb' : 4 * ((sampleVarQ (pvalues ps) : ℚ) : ℝ) <
            ((c : ℝ) - ((meanQ (pvalues ps) : ℚ) : ℝ)) ^ 2 := by exact_mod_cast hb
        have := hbr.mpr ⟨by linarith, hb'⟩
        linarith
      · intro h
        obtain ⟨ha, hb⟩ := hbr.mp (by linarith)
        constructor
        · exact_mod_cast (show ((meanQ (pvalues ps) : ℚ) : ℝ) < (c : ℝ) by linarith)
        · exact_mod_cast hb
    · intro c
      rw [lowOutlierB_iff_q (pvalues ps) h2' c]
      have hbr := two_sqrt_lt_iff ((sampleVarQ (pvalues ps) : ℝ))
        (((meanQ (pvalues ps) : ℚ) : ℝ) - (c : ℝ)) hV0
      constructor
      · rintro ⟨ha, hb⟩
        have ha' : (c : ℝ) < ((meanQ (pvalues ps) : ℚ) : ℝ) := by exact_mod_cast ha
        have hb' : 4 * ((sampleVarQ (pvalues ps) : ℚ) : ℝ) <
            (((meanQ (pvalues ps) : ℚ) : ℝ) - (c : ℝ)) ^ 2 := by exact_mod_cast hb
        have := hbr.mpr ⟨by linarith, hb'⟩
        linarith
      · intro h
        obtain ⟨ha, hb⟩ := hbr.mp (by linarith)
        constructor
        · exact_mod_cast (show (c : ℝ) < ((meanQ (pvalues ps) : ℚ) : ℝ) by linarith)
        · exact_mod_cast hb
  · intro hlt
    unfold detect_outliers
    rw [if_neg (by omega)]

/-- Witness for C5: five papers with one citation each and one with 100;
the paper with 100 citations is the only high outlier. -/
theorem detect_outliers_spec_witness :
    2 ≤ ([("A", 1), ("B", 1), ("C", 1), ("D", 1), ("E", 1), ("F", 100)] : Papers).length ∧
      (detect_outliers [("A", 1), ("B", 1), ("C", 1), ("D", 1), ("E", 1), ("F", 100)]).1 =
        List.filter
          (fun p => highOutlierB
            (pvalues [("A", 1), ("B", 1), ("C", 1), ("D", 1), ("E", 1), ("F", 100)]) p.2)
          [("A", 1), ("B", 1), ("C", 1), ("D", 1), ("E", 1), ("F", 100)] ∧
      (detect_outliers [("A", 1), ("B", 1), ("C", 1), ("D", 1), ("E", 1), ("F", 100)]).1 =
        [("F", 100)] :=
  ⟨by decide,
    ((detect_outliers_spec
      [("A", 1), ("B", 1), ("C", 1), ("D", 1), ("E", 1), ("F", 100)]).1 (by decide)).1,
    by decide⟩

/-! ## Round trip through the text format -/

theorem digitChar_props (d : Nat) (hd : d < 10) :
    (Char.ofNat (48 + d)).isDigit = true ∧
      (Char.ofNat (48 + d)).toNat = 48 + d ∧
      ((Char.ofNat (48 + d)) != '|') = true ∧
      ((Char.ofNat (48 + d)) != '\n') = true ∧
      isPySpace (Char.ofNat (48 + d)) = false := by
  interval_cases d <;> exact ⟨by decide, by decide, by decide, by decide, by decide⟩

theorem parseNat_append_digit (ds : List Char) (c : Char) :
    parseNat (ds ++ [c]) = parseNat ds * 10 + (c.toNat - 48) := by
  unfold parseNat
  rw [List.foldl_append]
  rfl

theorem natToDigitsAux_spec (fuel : Nat) : ∀ n, n < fuel →
    parseNat (natToDigitsAux fuel n) = n ∧
      natToDigitsAux fuel n ≠ [] ∧
      ∀ c ∈ natToDigitsAux fuel n,
        c.isDigit = true ∧ (c != '|') = true ∧ (c != '\n') = true ∧
          isPySpace c = false := by
  induction fuel with
  | zero => intro n h; omega
  | succ fuel ih =>
    intro n h
    by_cases h10 : n < 10
    · have hd := digitChar_props n h10
      simp only [natToDigitsAux, if_pos h10]
      refine ⟨?_, by simp, ?_⟩
      · show parseNat ([] ++ [Char.ofNat (48 + n)]) = n
        rw [parseNat_append_digit, hd.2.1]
        show 0 * 10 + (48 + n - 48) = n
        omega
      · intro c hc
        have hce : c = Char.ofNat (48 + n) := by simpa using hc
        rw [hce]
        exact ⟨hd.1, hd.2.2.1, hd.2.2.2.1, hd.2.2.2.2⟩
    · have hlt : n / 10 < fuel := by omega
      obtain ⟨hparse, hne, hdig⟩ := ih (n / 10) hlt
      have hm10 : n % 10 < 10 := Nat.mod_lt _ (by omega)
      have hd := digitChar_props (n % 10) hm10
      simp only [natToDigitsAux, if_neg h10]
      refine ⟨?_, by simp, ?_⟩
      · rw [parseNat_append_digit, hparse, hd.2.1]
        omega
      · intro c hc
        rcases List.mem_append.mp hc with hm | hm
        · exact hdig c hm
        · have hce : c = Char.ofNat (48 + n % 10) := by simpa using hm
          rw [hce]
          exact ⟨hd.1, hd.2.2.1, hd.2.2.2.1, hd.2.2.2.2⟩

theorem natToDigits_spec (n : Nat) :
    parseNat (natToDigits n) = n ∧ natToDigits n ≠ [] ∧
      ∀ c ∈ natToDigits n,
        c.isDigit = true ∧ (c != '|') = true ∧ (c != '\n') = true ∧
          isPySpace c = false :=
  natToDigitsAux_spec (n + 1) n (Nat.lt_succ_self n)

theorem dropWhile_eq_self_of_head (l : List Char) (hne : l ≠ [])
    (h : isPySpace (l.headD ' ') = false) : l.dropWhile isPySpace = l := by
  cases l with
  | nil => rfl
  | cons c cs => rw [List.dropWhile_cons, if_neg (by simpa using h)]

theorem pystrip_eq_self (l : List Char) (hne : l ≠ [])
    (hhead : isPySpace (l.headD ' ') = false)
    (hrevhead : isPySpace (l.reverse.headD ' ') = false) : pystrip l = l := by
  unfold pystrip
  rw [dropWhile_eq_self_of_head l hne hhead,
    dropWhile_eq_self_of_head l.reverse (by simpa using hne) hrevhead,
    List.reverse_reverse]

theorem headD_reverse_append_singleton (l : List Char) (x d : Char) :
    ((l ++ [x]).reverse.headD d) = x := by
  simp

theorem takeWhile_pipe (nm : List Char) (h : ∀ c ∈ nm, (c != '|') = true)
    (rest : List Char) :
    (nm ++ ('|' :: rest)).takeWhile (fun c => c != '|') = nm := by
  induction nm with
  | nil => simp [List.takeWhile_cons]
  | cons a nm ih =>
    rw [List.cons_append, List.takeWhile_cons,
      if_pos (by simpa using h a (List.mem_cons_self a nm))]
    rw [ih (fun c hc => h c (List.mem_cons_of_mem a hc))]

theorem dropWhile_pipe (nm : List Char) (h : ∀ c ∈ nm, (c != '|') = true)
    (rest : List Char) :
    (nm ++ ('|' :: rest)).dropWhile (fun c => c != '|') = '|' :: rest := by
  induction nm with
  | nil => simp [List.dropWhile_cons]
  | cons a nm ih =>
    rw [List.cons_append, List.dropWhile_cons,
      if_pos (by simpa using h a (List.mem_cons_self a nm))]
    exact ih (fun c hc => h c (List.mem_cons_of_mem a hc))

theorem splitNewlines_append (a b : List Char)
    (ha : ∀ c ∈ a, c ≠ '\x0d' ∧ c ≠ '\n') :
    splitNewlines (a ++ '\n' :: b) = a :: splitNewlines b := by
  unfold splitNewlines
  induction a with
  | nil => rfl
  | cons c a ih =>
    have hc := ha c (List.mem_cons_self c a)
    rw [List.cons_append]
    have hunfold : splitNLAux false (c :: (a ++ '\n' :: b)) =
        match splitNLAux false (a ++ '\n' :: b) with
        | [] => [[c]]
        | l :: ls => (c :: l) :: ls := by
      show (if c = '\n' then _ else if c = '\x0d' then _ else _) = _
      rw [if_neg hc.2, if_neg hc.1]
    rw [hunfold, ih (fun x hx => ha x (List.mem_cons_of_mem c hx))]

theorem pinsert_fresh (d : Papers) (name : String) (v : Nat)
    (h : ∀ q ∈ d, name ≠ q.1) : pinsert d name v = d ++ [(name, v)] := by
  unfold pinsert
  rw [if_neg]
  intro hany
  obtain ⟨q, hq, he⟩ := List.any_eq_true.mp hany
  have he' : q.1 = name := by simpa using he
  exact h q hq he'.symm

theorem wfName_parts (n : String) (h : wfName n = true) :
    n.toList ≠ [] ∧
      (∀ c ∈ n.toList,
        (c != '|') = true ∧ (c != '\n') = true ∧ (c != '\x0d') = true) ∧
      isPySpace (n.toList.headD '|') = false := by
  unfold wfName at h
  rw [Bool.and_eq_true, Bool.and_eq_true] at h
  obtain ⟨⟨h1, h2⟩, h3⟩ := h
  refine ⟨?_, ?_, ?_⟩
  · intro hnil
    rw [hnil] at h1
    simp at h1
  · intro c hc
    have hall := List.all_eq_true.mp h2 c hc
    rw [Bool.and_eq_true, Bool.and_eq_true] at hall
    exact ⟨hall.1.1, hall.1.2, hall.2⟩
  · simpa using h3

theorem loadLine_record (d : Papers) (p : String × Nat) (hwf : wfName p.1 = true) :
    loadLine d (p.1.toList ++ ('|' :: natToDigits p.2)) = pinsert d p.1 p.2 := by
  obtain ⟨hne, hchars, hhead⟩ := wfName_parts p.1 hwf
  obtain ⟨hparse, hdne, hdprops⟩ := natToDigits_spec p.2
  have hcont : ((p.1.toList ++ ('|' :: natToDigits p.2)).contains '|') = true := by
    simp
  have hstrip : pystrip (p.1.toList ++ ('|' :: natToDigits p.2)) =
      p.1.toList ++ ('|' :: natToDigits p.2) := by
    apply pystrip_eq_self
    · simp [hne]
    · cases hnm : p.1.toList with
      | nil => exact absurd hnm hne
      | cons a t =>
        rw [hnm] at hhead
        simpa using hhead
    · obtain ⟨ds', dl, hds⟩ : ∃ ds' dl, natToDigits p.2 = ds' ++ [dl] :=
        ⟨(natToDigits p.2).dropLast, (natToDigits p.2).getLast hdne,
          (List.dropLast_append_getLast hdne).symm⟩
      have hdl : isPySpace dl = false :=
        (hdprops dl (by rw [hds]; simp)).2.2.2
      have hshape : p.1.toList ++ ('|' :: natToDigits p.2) =
          (p.1.toList ++ ('|' :: ds')) ++ [dl] := by
        rw [hds]
        simp
      rw [hshape, headD_reverse_append_singleton]
      exact hdl
  have htake : (p.1.toList ++ ('|' :: natToDigits p.2)).takeWhile (fun c => c != '|') =
      p.1.toList :=
    takeWhile_pipe _ (fun c hc => (hchars c hc).1) _
  have hdrop : (p.1.toList ++ ('|' :: natToDigits p.2)).dropWhile (fun c => c != '|') =
      '|' :: natToDigits p.2 :=
    dropWhile_pipe _ (fun c hc => (hchars c hc).1) _
  have hdigit : pyIsDigit (natToDigits p.2) = true := by
    unfold pyIsDigit
    rw [Bool.and_eq_true]
    constructor
    · simp [hdne]
    · rw [List.all_eq_true]
      intro c hc
      exact (hdprops c hc).1
  unfold loadLine
  rw [if_pos hcont]
  show (if pyIsDigit (((pystrip (p.1.toList ++ ('|' :: natToDigits p.2))).dropWhile
        (fun c => c != '|')).drop 1) then
      pinsert d (((pystrip (p.1.toList ++ ('|' :: natToDigits p.2))).takeWhile
        (fun c => c != '|')).asString)
        (parseNat (((pystrip (p.1.toList ++ ('|' :: natToDigits p.2))).dropWhile
          (fun c => c != '|')).drop 1))
    else d) = pinsert d p.1 p.2
  rw [hstrip, htake, hdrop]
  simp only [List.drop_succ_cons, List.drop_zero]
  rw [if_pos hdigit, hparse]
  rfl

theorem load_fold (ps : Papers) : ∀ d : Papers,
    (∀ p ∈ ps, wfName p.1 = true) →
    (∀ p ∈ ps, ∀ q ∈ d, p.1 ≠ q.1) →
    (pkeys ps).Nodup →
    (splitNewlines ((ps.map saveLine).flatten)).foldl loadLine d = d ++ ps := by
  induction ps with
  | nil =>
    intro d _ _ _
    show List.foldl loadLine d [[]] = d ++ []
    rw [List.foldl_cons, List.foldl_nil, List.append_nil]
    rfl
  | cons p ps ih =>
    intro d hwf hfresh hnodup
    have hwfp := hwf p (List.mem_cons_self p ps)
    obtain ⟨hne, hchars, hhead⟩ := wfName_parts p.1 hwfp
    obtain ⟨hparse, hdne, hdprops⟩ := natToDigits_spec p.2
    have hkeys : (pkeys (p :: ps)) = p.1 :: pkeys ps := by simp [pkeys]
    rw [hkeys] at hnodup
    have hpnotin : p.1 ∉ pkeys ps := (List.nodup_cons.mp hnodup).1
    have hnodup' : (pkeys ps).Nodup := (List.nodup_cons.mp hnodup).2
    have hshape : (((p :: ps).map saveLine).flatten) =
        (p.1.toList ++ ('|' :: natToDigits p.2)) ++
          '\n' :: ((ps.map saveLine).flatten) := by
      simp [saveLine]
    rw [hshape, splitNewlines_append _ _ ?hno]
    case hno =>
      intro c hc
      rcases List.mem_append.mp hc with hm | hm
      · have h1 := (hchars c hm).2.1
        have h2 := (hchars c hm).2.2
        exact ⟨by simpa using h2, by simpa using h1⟩
      · rcases List.mem_cons.mp hm with rfl | hm
        · exact ⟨by decide, by decide⟩
        · have h1 := (hdprops c hm).2.2.1
          have h2 := (hdprops c hm).2.2.2
          refine ⟨?_, by simpa using h1⟩
          intro hcr
          rw [hcr] at h2
          exact absurd h2 (by decide)
    rw [List.foldl_cons, loadLine_record d p hwfp,
      pinsert_fresh d p.1 p.2 (fun q hq => hfresh p (List.mem_cons_self p ps) q hq)]
    have hps : (p.1, p.2) = p := rfl
    rw [hps]
    rw [ih (d ++ [p]) (fun r hr => hwf r (List.mem_cons_of_mem p hr)) ?hfr hnodup']
    · rw [List.append_assoc]
      rfl
    case hfr =>
      intro r hr q hq
      rcases List.mem_append.mp hq with hqd | hqp
      · exact hfresh r (List.mem_cons_of_mem p hr) q hqd
      · have hqe : q = p := by simpa using hqp
        rw [hqe]
        intro hcontra
        exact hpnotin (hcontra ▸ List.mem_map.mpr ⟨r, hr, rfl⟩)

/-- C3 (amended): saving then loading restores the collection, for unique
names that are non-empty, contain no `'|'`, no newline, no carriage
return, and do not start with whitespace (lines terminate at `"\n"`,
`"\r"` or `"\r\n"` under universal newlines and the load loop strips each
line, so a leading-whitespace or multi-line name would not survive). -/
theorem save_load_roundtrip (ps : Papers) (hnodup : (pkeys ps).Nodup)
    (hwf : ∀ p ∈ ps, wfName p.1 = true) :
    load_papers_from_txt (save_papers_to_txt ps) = ps := by
  unfold load_papers_from_txt save_papers_to_txt
  show (splitNewlines (((ps.map saveLine).flatten).asString).toList).foldl
      loadLine [] = ps
  have hts : (((ps.map saveLine).flatten).asString).toList = (ps.map saveLine).flatten :=
    rfl
  rw [hts, load_fold ps [] hwf (by intro p _ q hq; simp at hq) hnodup]
  rfl

/-- Witness for the amended C3 at the collection Alpha:12, B:0. -/
theorem save_load_roundtrip_witness :
    (pkeys [("Alpha", 12), ("B", 0)]).Nodup ∧
      (∀ p ∈ ([("Alpha", 12), ("B", 0)] : Papers), wfName p.1 = true) ∧
      load_papers_from_txt (save_papers_to_txt [("Alpha", 12), ("B", 0)]) =
        [("Alpha", 12), ("B", 0)] :=
  ⟨by decide, by decide, save_load_roundtrip _ (by decide) (by decide)⟩

/-- Counterexample to C3 as stated: the name " A" is non-empty and free of
`'|'`, yet `line.strip()` on load removes its leading space, so loading
the saved file yields the name "A" and the round trip fails. -/
theorem save_load_counterexample :
    ((" A" : String) ≠ "" ∧ (" A" : String).toList.all (fun c => c != '|') = true) ∧
      load_papers_from_txt (save_papers_to_txt [(" A", 1)]) ≠ [(" A", 1)] :=
  ⟨⟨by decide, by decide⟩, by decide⟩

end RISP
